import Mathlib

/-!
Verification of `rcmerkle` (src/src/lib.rs): a batch Merkle-root computation
(`MerkleTree`) and an incremental, state-carrying one (`BetterMerkleTree`),
both generic over a hash capability (`trait Hash`).

The hash capability is embedded as `HashScheme`: `hash` models
`H::hash(s.as_bytes())` (inside both algorithms only UTF-8 strings are ever
hashed), `toStr` models `H::to_string`, and `dflt` models `H::default()`.
All algorithm definitions are translated from the Rust source; concrete small
schemes over `Nat` are used to evaluate them on explicit inputs.
-/

/-- The `Hash` trait of the source, restricted to what the two tree
algorithms use: hashing the bytes of a string, the canonical string
encoding, and the `Default` value (the slot-empty sentinel). -/
structure HashScheme (α : Type) where
  hash : String → α
  toStr : α → String
  dflt : α

/-- `hash(to_string(a) ++ to_string(b))`: the parent-node computation both
algorithms perform (`s1.push_str(...); H::hash(s1.as_bytes())`). -/
def HashScheme.comb {α : Type} (M : HashScheme α) (a b : α) : α :=
  M.hash (M.toStr a ++ M.toStr b)

/-- The pairing loop of `MerkleTree::merkle`
(`for i in 0..r { next.push(hash(ts(vec[2i]) ++ ts(vec[2i+1]))) }`),
applied to the already-padded level: consecutive disjoint pairs, in order.
An unpaired trailing element (only possible on an odd-length input, which
the caller pads away) contributes nothing. -/
def pairUp {α : Type} (M : HashScheme α) : List α → List α
  | a :: b :: rest => M.comb a b :: pairUp M rest
  | _ => []

/-- The odd-length padding step of `MerkleTree::merkle`:
`if m == 1 { vec.push(vec[vec_len - 1].clone()) }`. -/
def pad {α : Type} (M : HashScheme α) (vec : List α) : List α :=
  if vec.length % 2 = 1 then vec ++ [vec.getLastD M.dflt] else vec

/-- `MerkleTree::merkle`, with the recursion depth made structural by a fuel
argument (the wrapper `MerkleTree.merkle` passes `vec.length`, which is
proved sufficient by `merkleGo_irrel` / `merkleF_some`).  The
`vec.length = 0` branch returns `vec`: on `[]` the Rust recursion never
terminates, and `MerkleTree::root` never calls it with `[]`; the
divergence itself is modelled faithfully by `MerkleTree.merkleF`. -/
def MerkleTree.merkleGo {α : Type} (M : HashScheme α) : Nat → List α → List α
  | 0, vec => vec
  | fuel + 1, vec =>
    if vec.length = 1 then vec
    else if vec.length = 0 then vec
    else MerkleTree.merkleGo M fuel (pairUp M (pad M vec))

/-- `MerkleTree::merkle`: recursive pairwise reduction with odd-node
duplication. -/
def MerkleTree.merkle {α : Type} (M : HashScheme α) (vec : List α) : List α :=
  MerkleTree.merkleGo M vec.length vec

/-- `MerkleTree::root`: default on the empty list, otherwise the single
element `merkle` reduces to (`remove(0)`, rendered as `headD` backed by
`merkle_ne_nil`). -/
def MerkleTree.root {α : Type} (M : HashScheme α) (hashes : List α) : α :=
  if hashes.length = 0 then M.dflt
  else (MerkleTree.merkle M hashes).headD M.dflt

/-- `MerkleTree::merkle` as the literal unbounded recursion of the source,
with a step budget: `none` means the budget was exhausted.  Unlike
`MerkleTree.merkleGo` there is no escape branch for `[]`: the `[]` input
recurses forever in Rust and here consumes any finite budget
(`merkleF_nil_none`). -/
def MerkleTree.merkleF {α : Type} (M : HashScheme α) : Nat → List α → Option (List α)
  | 0, _ => none
  | fuel + 1, vec =>
    if vec.length = 1 then some vec
    else MerkleTree.merkleF M fuel (pairUp M (pad M vec))

/-- The incremental accumulator of the source:
`pub struct BetterMerkleTree<H: Hash>(Vec<H>, H)` — field `0` is the
per-level slot vector, field `1` the most recently returned root. -/
structure BetterMerkleTree (α : Type) where
  slots : List α
  currentRoot : α

/-- `BetterMerkleTree::merkle`, with the level walk made structural by a
fuel argument; the wrapper `BetterMerkleTree.merkle` passes
`slots.length - round + 1`, which is exact: the recursion keeps the slot
vector's length fixed and stops once `round` reaches it (the `0` case is
unreachable; `bmerkleF_some` proves the budget sufficient).  Result: the
slot vector after the walk's mutations, and the returned digest. -/
def BetterMerkleTree.merkleGo {α : Type} [DecidableEq α] (M : HashScheme α) :
    Nat → List α → α → Bool → Nat → List α × α
  | 0, slots, new, _, _ => (slots, new)
  | fuel + 1, slots, new, is_full, round =>
    if slots.length ≤ round then
      (if slots.all (fun i => i == M.dflt) then slots ++ [new] else slots, new)
    else if (slots.getD round M.dflt) ≠ M.dflt then
      BetterMerkleTree.merkleGo M fuel
        (if is_full then slots.set round M.dflt else slots)
        (M.comb (slots.getD round M.dflt) new) is_full (round + 1)
    else
      BetterMerkleTree.merkleGo M fuel
        (if is_full then slots.set round new else slots)
        (M.comb new new) false (round + 1)

/-- `BetterMerkleTree::merkle` (the level walk starting at `round`). -/
def BetterMerkleTree.merkle {α : Type} [DecidableEq α] (M : HashScheme α)
    (slots : List α) (new : α) (is_full : Bool) (round : Nat) : List α × α :=
  BetterMerkleTree.merkleGo M (slots.length - round + 1) slots new is_full round

/-- `BetterMerkleTree::new()`. -/
def BetterMerkleTree.new {α : Type} (M : HashScheme α) : BetterMerkleTree α :=
  ⟨[], M.dflt⟩

/-- `BetterMerkleTree::load(vec)`: restore saved slots, root reset to default. -/
def BetterMerkleTree.load {α : Type} (M : HashScheme α) (vec : List α) :
    BetterMerkleTree α :=
  ⟨vec, M.dflt⟩

/-- `BetterMerkleTree::helper()`: the saved-state view of the slot vector. -/
def BetterMerkleTree.helper {α : Type} (t : BetterMerkleTree α) : List α :=
  t.slots

/-- `BetterMerkleTree::now()`. -/
def BetterMerkleTree.now {α : Type} (t : BetterMerkleTree α) : α :=
  t.currentRoot

/-- `BetterMerkleTree::root(new)`, the feed operation: run the walk from
level 0 with `is_full = true`, store the returned digest in field `1`,
return it.  Rendered state-passing style: the updated accumulator plus the
returned digest. -/
def BetterMerkleTree.root {α : Type} [DecidableEq α] (M : HashScheme α)
    (t : BetterMerkleTree α) (new : α) : BetterMerkleTree α × α :=
  (⟨(BetterMerkleTree.merkle M t.slots new true 0).1,
    (BetterMerkleTree.merkle M t.slots new true 0).2⟩,
   (BetterMerkleTree.merkle M t.slots new true 0).2)

/-- Feed a whole list, one `BetterMerkleTree::root` call per element. -/
def feedList {α : Type} [DecidableEq α] (M : HashScheme α)
    (t : BetterMerkleTree α) (l : List α) : BetterMerkleTree α :=
  l.foldl (fun t x => (BetterMerkleTree.root M t x).1) t

/-- `BetterMerkleTree::merkle` as the literal recursion of the source with a
step budget (`none` = budget exhausted); used to state termination. -/
def BetterMerkleTree.merkleF {α : Type} [DecidableEq α] (M : HashScheme α) :
    Nat → List α → α → Bool → Nat → Option (List α × α)
  | 0, _, _, _, _ => none
  | fuel + 1, slots, new, is_full, round =>
    if slots.length ≤ round then
      some (if slots.all (fun i => i == M.dflt) then slots ++ [new] else slots, new)
    else if (slots.getD round M.dflt) ≠ M.dflt then
      BetterMerkleTree.merkleF M fuel
        (if is_full then slots.set round M.dflt else slots)
        (M.comb (slots.getD round M.dflt) new) is_full (round + 1)
    else
      BetterMerkleTree.merkleF M fuel
        (if is_full then slots.set round new else slots)
        (M.comb new new) false (round + 1)

/-- A concrete `Hash` instance over `Nat`: unary string encoding, hash =
encoded length, default `0` (so `comb a b = a + b`, and the digest `0` is
the default value — used to exercise the default-digest corner). -/
def unaryS : HashScheme Nat :=
  ⟨fun s => s.data.length, fun n => String.mk (List.replicate n 'a'), 0⟩

/-- A concrete `Hash` instance over `Nat` whose hash output is never the
default: unary string encoding, hash = encoded length + 1, default `0`
(so `comb a b = a + b + 1 ≠ 0`). -/
def unaryP : HashScheme Nat :=
  ⟨fun s => s.data.length + 1, fun n => String.mk (List.replicate n 'a'), 0⟩

/-- The walk of `BetterMerkleTree::merkle` over the slot suffix above the
current level: the per-level slot updates, the carried value, and the
authoritative flag at the end.  `bmerkle_decomp` proves it is exactly what
the indexed walk does. -/
def walk {α : Type} [DecidableEq α] (M : HashScheme α) :
    List α → α → Bool → List α × α × Bool
  | [], v, full => ([], v, full)
  | s :: rest, v, full =>
    if s ≠ M.dflt then
      ((if full then M.dflt else s) :: (walk M rest (M.comb s v) full).1,
       (walk M rest (M.comb s v) full).2)
    else
      ((if full then v else s) :: (walk M rest (M.comb v v) false).1,
       (walk M rest (M.comb v v) false).2)

/-- The end-of-walk append decision of `BetterMerkleTree::merkle`
(`need_append` scan + `push`). -/
def finish {α : Type} [DecidableEq α] (M : HashScheme α) (s : List α) (v : α) : List α :=
  if s.all (fun i => i == M.dflt) then s ++ [v] else s

/-- The slot vector the accumulator holds after the leaves `l` have been
fed (proved by `feedList_spec`): level 0 stores the last leaf iff the leaf
count is odd, and the higher levels are the same picture for the paired-up
level above. -/
def slotsModelGo {α : Type} (M : HashScheme α) : Nat → List α → List α
  | 0, l => l
  | fuel + 1, l =>
    if l.length ≤ 1 then l
    else (if l.length % 2 = 1 then l.getLastD M.dflt else M.dflt) ::
      slotsModelGo M fuel (pairUp M l)

def slotsModel {α : Type} (M : HashScheme α) (l : List α) : List α :=
  slotsModelGo M l.length l

/-- One byte rendered by `format!("{:02x?}", byte)` for a `u8`: two
lowercase hex digits, high nibble first, zero-padded. -/
def byteHexChars (b : Nat) : List Char :=
  [Nat.digitChar (b / 16), Nat.digitChar (b % 16)]

/-- `impl Display for SHA256` (and the byte-identical `impl Display for
Keccak256`): `"0x"` followed by each byte of the 32-byte digest in
`{:02x?}` form, in order, no separators. -/
def digestStr (d : List Nat) : String :=
  "0x" ++ String.mk ((d.map byteHexChars).flatten)

/-- The `Hash`-trait view of a 32-byte digest type of the source (`SHA256`
or `Keccak256`): `to_string` is the `Display` rendering above, `default`
is `[u8; 32]`'s `Default` (all zeros); the compression function itself
(`sha2::Sha256` resp. `sha3::Sha3_256`) stays an opaque parameter `f`. -/
def digest32Scheme (f : String → List Nat) : HashScheme (List Nat) :=
  ⟨f, digestStr, List.replicate 32 0⟩

/-- The sixteen lowercase hexadecimal digit characters. -/
def lowerHexChars : List Char :=
  "0123456789abcdef".data

/-- Two-at-a-time list induction, matching `pairUp`'s recursion. -/
theorem twoStepInd {α : Type} {P : List α → Prop} (h0 : P []) (h1 : ∀ a, P [a])
    (h2 : ∀ a b l, P l → P (a :: b :: l)) : ∀ l, P l
  | [] => h0
  | [a] => h1 a
  | a :: b :: l => h2 a b l (twoStepInd h0 h1 h2 l)

theorem pairUp_length {α : Type} (M : HashScheme α) :
    ∀ l : List α, (pairUp M l).length = l.length / 2 := by
  refine twoStepInd ?_ ?_ ?_
  · simp [pairUp]
  · simp [pairUp]
  · intro a b l ih
    simp [pairUp, ih]
    omega

theorem pad_length {α : Type} (M : HashScheme α) (vec : List α) :
    (pad M vec).length = if vec.length % 2 = 1 then vec.length + 1 else vec.length := by
  by_cases h : vec.length % 2 = 1 <;> simp [pad, h]

/-- `pairUp` splits across an append at an even boundary. -/
theorem pairUp_append {α : Type} (M : HashScheme α) :
    ∀ l r : List α, l.length % 2 = 0 → pairUp M (l ++ r) = pairUp M l ++ pairUp M r := by
  intro l
  induction l using twoStepInd with
  | h0 => intro r _; simp [pairUp]
  | h1 a => intro r h; simp at h
  | h2 a b l ih =>
    intro r h
    simp only [List.length_cons] at h
    simp only [List.cons_append, pairUp, List.append_eq, ih r (by omega)]

theorem merkleGo_irrel {α : Type} (M : HashScheme α) :
    ∀ f g vec, vec.length ≤ f → vec.length ≤ g →
      MerkleTree.merkleGo M f vec = MerkleTree.merkleGo M g vec := by
  intro f
  induction f with
  | zero =>
    intro g vec hf hg
    have : vec = [] := List.eq_nil_of_length_eq_zero (by omega)
    subst this
    cases g with
    | zero => rfl
    | succ g => simp [MerkleTree.merkleGo]
  | succ f ih =>
    intro g vec hf hg
    match vec, g with
    | vec, 0 =>
      have : vec = [] := List.eq_nil_of_length_eq_zero (by omega)
      subst this
      simp [MerkleTree.merkleGo]
    | vec, g + 1 =>
      by_cases h1 : vec.length = 1
      · simp [MerkleTree.merkleGo, h1]
      · by_cases h0 : vec.length = 0
        · simp [MerkleTree.merkleGo, h0, h1]
        · simp only [MerkleTree.merkleGo, h0, h1, if_false]
          apply ih
          · rw [pairUp_length, pad_length]
            by_cases hp : vec.length % 2 = 1 <;> simp [hp] <;> omega
          · rw [pairUp_length, pad_length]
            by_cases hp : vec.length % 2 = 1 <;> simp [hp] <;> omega

theorem merkle_one {α : Type} (M : HashScheme α) (x : α) :
    MerkleTree.merkle M [x] = [x] := rfl

/-- One level of the batch recursion: for at least two elements,
`merkle vec = merkle (pairUp (pad vec))`. -/
theorem merkle_step {α : Type} (M : HashScheme α) (vec : List α) (h : 2 ≤ vec.length) :
    MerkleTree.merkle M vec = MerkleTree.merkle M (pairUp M (pad M vec)) := by
  unfold MerkleTree.merkle
  have hnext : (pairUp M (pad M vec)).length ≤ vec.length - 1 := by
    rw [pairUp_length, pad_length]
    by_cases hp : vec.length % 2 = 1 <;> simp [hp] <;> omega
  rcases Nat.exists_eq_add_of_le h with ⟨k, hk⟩
  have h1 : vec.length ≠ 1 := by omega
  have h0 : vec.length ≠ 0 := by omega
  conv_lhs => rw [hk]
  rw [show 2 + k = (1 + k) + 1 by omega]
  simp only [MerkleTree.merkleGo, h1, h0, if_false]
  exact merkleGo_irrel M _ _ _ (by omega) le_rfl

theorem merkle_ne_nil {α : Type} (M : HashScheme α) :
    ∀ vec : List α, vec ≠ [] → MerkleTree.merkle M vec ≠ [] := by
  suffices h : ∀ (n : Nat) (vec : List α), vec.length ≤ n → vec ≠ [] →
      MerkleTree.merkle M vec ≠ [] by
    exact fun vec => h vec.length vec le_rfl
  intro n
  induction n with
  | zero =>
    intro vec h0 hne
    exact absurd (List.eq_nil_of_length_eq_zero (by omega)) hne
  | succ n ih =>
    intro vec hle hne
    by_cases h1 : vec.length = 1
    · match vec, h1 with
      | [x], _ => simp [merkle_one]
    · have h2 : 2 ≤ vec.length := by
        have : vec.length ≠ 0 := by simpa using hne
        omega
      rw [merkle_step M vec h2]
      have hlen : (pairUp M (pad M vec)).length = (pad M vec).length / 2 := pairUp_length M _
      rw [pad_length] at hlen
      apply ih
      · by_cases hp : vec.length % 2 = 1 <;> simp [hp] at hlen <;> omega
      · intro habs
        rw [habs] at hlen
        simp at hlen
        by_cases hp : vec.length % 2 = 1 <;> simp [hp] at hlen <;> omega

/-- One structural step of the fuelled walk. -/
theorem merkleGo_succ {α : Type} [DecidableEq α] (M : HashScheme α)
    (fuel : Nat) (slots : List α) (v : α) (full : Bool) (round : Nat) :
    BetterMerkleTree.merkleGo M (fuel + 1) slots v full round =
      if slots.length ≤ round then
        (if slots.all (fun i => i == M.dflt) then slots ++ [v] else slots, v)
      else if slots.getD round M.dflt ≠ M.dflt then
        BetterMerkleTree.merkleGo M fuel
          (if full then slots.set round M.dflt else slots)
          (M.comb (slots.getD round M.dflt) v) full (round + 1)
      else
        BetterMerkleTree.merkleGo M fuel
          (if full then slots.set round v else slots)
          (M.comb v v) false (round + 1) := rfl

/-- Walk-termination branch of `BetterMerkleTree::merkle`
(`self.0.len() <= round`). -/
theorem bmerkle_le {α : Type} [DecidableEq α] (M : HashScheme α)
    (slots : List α) (v : α) (full : Bool) (round : Nat) (h : slots.length ≤ round) :
    BetterMerkleTree.merkle M slots v full round =
      (if slots.all (fun i => i == M.dflt) then slots ++ [v] else slots, v) := by
  unfold BetterMerkleTree.merkle
  rw [Nat.sub_eq_zero_of_le h, merkleGo_succ, if_pos h]

/-- Stored-sibling branch of `BetterMerkleTree::merkle`
(`self.0[round] != H::default()`). -/
theorem bmerkle_stored {α : Type} [DecidableEq α] (M : HashScheme α)
    (slots : List α) (v : α) (full : Bool) (round : Nat)
    (h : round < slots.length) (hne : slots.getD round M.dflt ≠ M.dflt) :
    BetterMerkleTree.merkle M slots v full round =
      BetterMerkleTree.merkle M (if full then slots.set round M.dflt else slots)
        (M.comb (slots.getD round M.dflt) v) full (round + 1) := by
  unfold BetterMerkleTree.merkle
  have hs : (if full then slots.set round M.dflt else slots).length = slots.length := by
    cases full <;> simp
  rw [hs, show slots.length - round + 1 = (slots.length - (round + 1) + 1) + 1 by omega,
    merkleGo_succ, if_neg (Nat.not_le.mpr h), if_pos hne]

/-- Empty-slot branch of `BetterMerkleTree::merkle`
(`self.0[round] == H::default()`): park the value when authoritative, carry
the duplicate-pad hash upward, and — in the source — continue with
`next_full = false` in either case. -/
theorem bmerkle_empty {α : Type} [DecidableEq α] (M : HashScheme α)
    (slots : List α) (v : α) (full : Bool) (round : Nat)
    (h : round < slots.length) (he : slots.getD round M.dflt = M.dflt) :
    BetterMerkleTree.merkle M slots v full round =
      BetterMerkleTree.merkle M (if full then slots.set round v else slots)
        (M.comb v v) false (round + 1) := by
  unfold BetterMerkleTree.merkle
  have hs : (if full then slots.set round v else slots).length = slots.length := by
    cases full <;> simp
  rw [hs, show slots.length - round + 1 = (slots.length - (round + 1) + 1) + 1 by omega,
    merkleGo_succ, if_neg (Nat.not_le.mpr h), if_neg (not_not_intro he)]

theorem root_nil {α : Type} (M : HashScheme α) : MerkleTree.root M [] = M.dflt := rfl

theorem root_one {α : Type} (M : HashScheme α) (x : α) : MerkleTree.root M [x] = x := rfl

theorem root_two {α : Type} (M : HashScheme α) (a b : α) :
    MerkleTree.root M [a, b] = M.comb a b := by
  show (MerkleTree.merkle M [a, b]).headD M.dflt = M.comb a b
  rw [merkle_step M _ (by simp)]
  simp [pad, pairUp, MerkleTree.merkle, MerkleTree.merkleGo]

/-- `root` absorbs one level of the batch recursion. -/
theorem root_step {α : Type} (M : HashScheme α) (vec : List α) (h : 2 ≤ vec.length) :
    MerkleTree.root M vec = MerkleTree.root M (pairUp M (pad M vec)) := by
  have hlen : (pairUp M (pad M vec)).length = (pad M vec).length / 2 := pairUp_length M _
  rw [pad_length] at hlen
  have h0 : (pairUp M (pad M vec)).length ≠ 0 := by
    by_cases hp : vec.length % 2 = 1 <;> simp [hp] at hlen <;> omega
  unfold MerkleTree.root
  rw [if_neg (by omega), if_neg h0, merkle_step M vec h]

theorem walk_cons_ne {α : Type} [DecidableEq α] (M : HashScheme α)
    {s : α} (rest : List α) (v : α) (full : Bool) (hs : s ≠ M.dflt) :
    walk M (s :: rest) v full =
      ((if full then M.dflt else s) :: (walk M rest (M.comb s v) full).1,
       (walk M rest (M.comb s v) full).2) := by
  simp [walk, hs]

theorem walk_cons_eq {α : Type} [DecidableEq α] (M : HashScheme α)
    {s : α} (rest : List α) (v : α) (full : Bool) (hs : s = M.dflt) :
    walk M (s :: rest) v full =
      ((if full then v else s) :: (walk M rest (M.comb v v) false).1,
       (walk M rest (M.comb v v) false).2) := by
  simp [walk, hs]

theorem getD_append_length {α : Type} :
    ∀ (pre : List α) (s : α) (rest : List α) (d : α),
      (pre ++ s :: rest).getD pre.length d = s := by
  intro pre
  induction pre with
  | nil => intro s rest d; rfl
  | cons a pre ih => intro s rest d; simpa using ih s rest d

theorem set_append_length {α : Type} :
    ∀ (pre : List α) (s : α) (rest : List α) (x : α),
      (pre ++ s :: rest).set pre.length x = pre ++ x :: rest := by
  intro pre
  induction pre with
  | nil => intro s rest x; rfl
  | cons a pre ih => intro s rest x; simp [ih s rest x]

/-- The indexed level walk, decomposed: below the current level the slots
are untouched, above it the walk acts as `walk`, and the final
`need_append` check sees the whole mutated vector. -/
theorem bmerkle_decomp {α : Type} [DecidableEq α] (M : HashScheme α) :
    ∀ (suf pre : List α) (v : α) (full : Bool),
      BetterMerkleTree.merkle M (pre ++ suf) v full pre.length =
        (finish M (pre ++ (walk M suf v full).1) (walk M suf v full).2.1,
         (walk M suf v full).2.1) := by
  intro suf
  induction suf with
  | nil =>
    intro pre v full
    rw [bmerkle_le M _ _ _ _ (by simp)]
    simp [walk, finish]
  | cons s rest ih =>
    intro pre v full
    have hlt : pre.length < (pre ++ s :: rest).length := by simp
    have hget : (pre ++ s :: rest).getD pre.length M.dflt = s := getD_append_length ..
    by_cases hs : s ≠ M.dflt
    · rw [walk_cons_ne M rest v full hs]
      rw [bmerkle_stored M _ _ _ _ hlt (by rw [hget]; exact hs), hget]
      have hpre1 : pre.length + 1 = (pre ++ [if full then M.dflt else s]).length := by simp
      have hslots : (if full then (pre ++ s :: rest).set pre.length M.dflt
            else pre ++ s :: rest) =
          (pre ++ [if full then M.dflt else s]) ++ rest := by
        cases full <;> simp [set_append_length]
      rw [hslots, hpre1, ih]
      simp only [List.append_assoc, List.singleton_append]
    · push_neg at hs
      rw [walk_cons_eq M rest v full hs]
      rw [bmerkle_empty M _ _ _ _ hlt (by rw [hget, hs])]
      have hpre1 : pre.length + 1 = (pre ++ [if full then v else s]).length := by simp
      have hslots : (if full then (pre ++ s :: rest).set pre.length v
            else pre ++ s :: rest) =
          (pre ++ [if full then v else s]) ++ rest := by
        cases full <;> simp [set_append_length, hs]
      rw [hslots, hpre1, ih]
      simp only [List.append_assoc, List.singleton_append]

/-- The feed walk from level 0 is `walk` over the whole slot vector plus
the final append decision. -/
theorem bmerkle_walk {α : Type} [DecidableEq α] (M : HashScheme α)
    (slots : List α) (v : α) (full : Bool) :
    BetterMerkleTree.merkle M slots v full 0 =
      (finish M (walk M slots v full).1 (walk M slots v full).2.1,
       (walk M slots v full).2.1) := by
  have h := bmerkle_decomp M slots [] v full
  simp only [List.nil_append, List.length_nil] at h
  exact h

/-- Induction following `slotsModel`'s level descent. -/
theorem pairInd {α : Type} (M : HashScheme α) {P : List α → Prop} (h0 : P [])
    (h1 : ∀ a, P [a]) (h2 : ∀ l, 2 ≤ l.length → P (pairUp M l) → P l) : ∀ l, P l := by
  suffices h : ∀ (n : Nat) (l : List α), l.length ≤ n → P l from fun l => h l.length l le_rfl
  intro n
  induction n with
  | zero =>
    intro l hl
    have : l = [] := List.eq_nil_of_length_eq_zero (by omega)
    subst this
    exact h0
  | succ n ih =>
    intro l hl
    match l with
    | [] => exact h0
    | [a] => exact h1 a
    | a :: b :: t =>
      refine h2 _ (by simp) (ih _ ?_)
      rw [pairUp_length]
      simp only [List.length_cons] at hl ⊢
      omega

theorem slotsModelGo_succ {α : Type} (M : HashScheme α) (fuel : Nat) (l : List α) :
    slotsModelGo M (fuel + 1) l =
      if l.length ≤ 1 then l
      else (if l.length % 2 = 1 then l.getLastD M.dflt else M.dflt) ::
        slotsModelGo M fuel (pairUp M l) := rfl

theorem slotsModelGo_irrel {α : Type} (M : HashScheme α) :
    ∀ f g l, l.length ≤ f → l.length ≤ g → slotsModelGo M f l = slotsModelGo M g l := by
  intro f
  induction f with
  | zero =>
    intro g l hf hg
    have : l = [] := List.eq_nil_of_length_eq_zero (by omega)
    subst this
    cases g with
    | zero => rfl
    | succ g => simp [slotsModelGo]
  | succ f ih =>
    intro g l hf hg
    match g with
    | 0 =>
      have : l = [] := List.eq_nil_of_length_eq_zero (by omega)
      subst this
      simp [slotsModelGo]
    | g + 1 =>
      by_cases h1 : l.length ≤ 1
      · simp [slotsModelGo, h1]
      · simp only [slotsModelGo, h1, if_false]
        congr 1
        apply ih <;> rw [pairUp_length] <;> omega

theorem slotsModel_nil {α : Type} (M : HashScheme α) : slotsModel M [] = [] := rfl

theorem slotsModel_one {α : Type} (M : HashScheme α) (a : α) :
    slotsModel M [a] = [a] := by
  simp [slotsModel, slotsModelGo]

theorem slotsModel_cons {α : Type} (M : HashScheme α) (l : List α) (h : 2 ≤ l.length) :
    slotsModel M l =
      (if l.length % 2 = 1 then l.getLastD M.dflt else M.dflt) :: slotsModel M (pairUp M l) := by
  unfold slotsModel
  conv_lhs => rw [show l.length = (l.length - 1) + 1 from by omega]
  rw [slotsModelGo_succ, if_neg (by omega)]
  congr 1
  exact slotsModelGo_irrel M (l.length - 1) (pairUp M l).length (pairUp M l)
    (by rw [pairUp_length]; omega) le_rfl

/-- Every element of a paired-up level is a hash output. -/
theorem mem_pairUp_ne_dflt {α : Type} (M : HashScheme α)
    (hh : ∀ s, M.hash s ≠ M.dflt) :
    ∀ l : List α, ∀ z ∈ pairUp M l, z ≠ M.dflt := by
  refine twoStepInd ?_ ?_ ?_
  · simp [pairUp]
  · simp [pairUp]
  · intro a b l ih z hz
    simp only [pairUp, List.mem_cons] at hz
    rcases hz with hz | hz
    · subst hz
      exact hh _
    · exact ih z hz

theorem getLastD_mem {α : Type} : ∀ (l : List α) (d : α), l ≠ [] → l.getLastD d ∈ l := by
  intro l
  induction l with
  | nil => intro d h; exact absurd rfl h
  | cons a t ih =>
    intro d _
    rw [List.getLastD_cons]
    by_cases ht : t = []
    · subst ht
      simp [List.getLastD]
    · exact List.mem_cons_of_mem a (ih a ht)

/-- `pairUp` over a list with one appended element, odd base length: the
appended element pairs with the base's last element. -/
theorem pairUp_concat_odd {α : Type} (M : HashScheme α) (l : List α) (x : α)
    (h : l.length % 2 = 1) :
    pairUp M (l ++ [x]) = pairUp M l ++ [M.comb (l.getLastD M.dflt) x] := by
  have hne : l ≠ [] := by
    intro h0
    subst h0
    simp at h
  obtain ⟨l', z, rfl⟩ : ∃ l' z, l = l' ++ [z] :=
    ⟨l.dropLast, l.getLast hne, (List.dropLast_append_getLast hne).symm⟩
  have hl' : l'.length % 2 = 0 := by
    simp at h
    omega
  rw [List.append_assoc, pairUp_append M l' ([z] ++ [x]) hl', pairUp_append M l' [z] hl']
  simp [pairUp]

/-- `pairUp` ignores one appended element after an even base length. -/
theorem pairUp_concat_even {α : Type} (M : HashScheme α) (l : List α) (x : α)
    (h : l.length % 2 = 0) : pairUp M (l ++ [x]) = pairUp M l := by
  rw [pairUp_append M l [x] h]
  simp [pairUp]

/-- `pairUp` over two appended elements after an even base length. -/
theorem pairUp_concat2_even {α : Type} (M : HashScheme α) (l : List α) (x y : α)
    (h : l.length % 2 = 0) : pairUp M (l ++ [x, y]) = pairUp M l ++ [M.comb x y] := by
  rw [pairUp_append M l [x, y] h]
  simp [pairUp]

/-- A non-authoritative walk never mutates a slot. -/
theorem walk_false_fst {α : Type} [DecidableEq α] (M : HashScheme α) :
    ∀ (s : List α) (v : α), (walk M s v false).1 = s := by
  intro s
  induction s with
  | nil => intro v; rfl
  | cons a rest ih =>
    intro v
    by_cases ha : a ≠ M.dflt
    · rw [walk_cons_ne M rest v false ha]
      simp [ih]
    · push_neg at ha
      rw [walk_cons_eq M rest v false ha]
      simp [ha, ih]

theorem concat_getLastD {α : Type} : ∀ (l : List α) (x d : α), (l ++ [x]).getLastD d = x := by
  intro l
  induction l with
  | nil => intro x d; simp [List.getLastD]
  | cons a t ih =>
    intro x d
    rw [List.cons_append, List.getLastD_cons]
    exact ih x a

/-- Appending one element to an odd-length level: the batch root is the
root of the paired-up level with the new pair appended. -/
theorem root_concat_odd {α : Type} (M : HashScheme α) (l : List α) (x : α)
    (h : l.length % 2 = 1) :
    MerkleTree.root M (l ++ [x]) =
      MerkleTree.root M (pairUp M l ++ [M.comb (l.getLastD M.dflt) x]) := by
  rw [root_step M (l ++ [x]) (by simp; omega)]
  have hpad : pad M (l ++ [x]) = l ++ [x] := by
    unfold pad
    rw [if_neg (by simp; omega)]
  rw [hpad, pairUp_concat_odd M l x h]

/-- Appending one element to an even-length nonempty level: the batch root
duplicate-pads the new element and descends. -/
theorem root_concat_even {α : Type} (M : HashScheme α) (l : List α) (x : α)
    (h : l.length % 2 = 0) (h2 : 2 ≤ l.length) :
    MerkleTree.root M (l ++ [x]) =
      MerkleTree.root M (pairUp M l ++ [M.comb x x]) := by
  rw [root_step M (l ++ [x]) (by simp; omega)]
  have hpad : pad M (l ++ [x]) = l ++ [x, x] := by
    unfold pad
    rw [if_pos (by simp; omega), concat_getLastD, List.append_assoc]
    rfl
  rw [hpad, pairUp_concat2_even M l x x h]

theorem finish_cons_dflt {α : Type} [DecidableEq α] (M : HashScheme α)
    (s : List α) (v : α) :
    finish M (M.dflt :: s) v = M.dflt :: finish M s v := by
  unfold finish
  simp only [List.all_cons, beq_self_eq_true, Bool.true_and]
  by_cases hc : s.all (fun i => i == M.dflt) <;> simp [hc]

/-- A non-authoritative walk over the slot state for leaves `l`, carrying
`v`, computes the batch root of `l ++ [v]`: the virtual completion of the
tree agrees with duplicate-pad batch recomputation. -/
theorem walk_virtual {α : Type} [DecidableEq α] (M : HashScheme α)
    (hh : ∀ s, M.hash s ≠ M.dflt) :
    ∀ l : List α, (∀ z ∈ l, z ≠ M.dflt) →
      ∀ v, (walk M (slotsModel M l) v false).2.1 = MerkleTree.root M (l ++ [v]) := by
  refine pairInd M ?_ ?_ ?_
  · intro _ v
    simp [slotsModel_nil, walk, root_one]
  · intro a hl v
    have ha : a ≠ M.dflt := hl a (by simp)
    rw [slotsModel_one, walk_cons_ne M [] v false ha]
    simpa [walk] using (root_two M a v).symm
  · intro l hlen ih hl v
    have hmem : ∀ z ∈ pairUp M l, z ≠ M.dflt := mem_pairUp_ne_dflt M hh l
    rw [slotsModel_cons M l hlen]
    by_cases hp : l.length % 2 = 1
    · have hz : l.getLastD M.dflt ∈ l := by
        refine getLastD_mem l M.dflt ?_
        intro h0
        subst h0
        simp at hlen
      have hne := hl _ hz
      rw [if_pos hp, walk_cons_ne M _ v false hne]
      show (walk M (slotsModel M (pairUp M l)) (M.comb (l.getLastD M.dflt) v) false).2.1 =
        MerkleTree.root M (l ++ [v])
      rw [ih hmem (M.comb (l.getLastD M.dflt) v)]
      exact (root_concat_odd M l v hp).symm
    · rw [if_neg hp, walk_cons_eq M _ v false rfl]
      show (walk M (slotsModel M (pairUp M l)) (M.comb v v) false).2.1 =
        MerkleTree.root M (l ++ [v])
      rw [ih hmem (M.comb v v)]
      exact (root_concat_even M l v (by omega) hlen).symm

/-- The authoritative feed walk over the slot state for leaves `l`, fed a
new non-default leaf `x`: after the end-of-walk append decision the slots
are exactly the slot state for `l ++ [x]`, and the returned value is the
batch root of `l ++ [x]`. -/
theorem walk_step {α : Type} [DecidableEq α] (M : HashScheme α)
    (hh : ∀ s, M.hash s ≠ M.dflt) :
    ∀ l : List α, (∀ z ∈ l, z ≠ M.dflt) →
      ∀ x, x ≠ M.dflt →
        finish M (walk M (slotsModel M l) x true).1 (walk M (slotsModel M l) x true).2.1
            = slotsModel M (l ++ [x])
          ∧ (walk M (slotsModel M l) x true).2.1 = MerkleTree.root M (l ++ [x]) := by
  refine pairInd M ?_ ?_ ?_
  · intro _ x hx
    constructor
    · simp [slotsModel_nil, walk, finish, slotsModel_one]
    · simp [slotsModel_nil, walk, root_one]
  · intro a hl x hx
    have ha : a ≠ M.dflt := hl a (by simp)
    rw [slotsModel_one, walk_cons_ne M [] x true ha]
    constructor
    · show finish M [M.dflt] (M.comb a x) = slotsModel M ([a] ++ [x])
      rw [show ([a] ++ [x]) = [a, x] from rfl, slotsModel_cons M [a, x] (by simp),
        if_neg (by simp)]
      show finish M [M.dflt] (M.comb a x) = M.dflt :: slotsModel M [M.comb a x]
      rw [slotsModel_one, finish_cons_dflt]
      simp [finish]
    · show M.comb a x = MerkleTree.root M ([a] ++ [x])
      rw [show ([a] ++ [x]) = [a, x] from rfl, root_two]
  · intro l hlen ih hl x hx
    have hmem : ∀ z ∈ pairUp M l, z ≠ M.dflt := mem_pairUp_ne_dflt M hh l
    rw [slotsModel_cons M l hlen]
    by_cases hp : l.length % 2 = 1
    · have hz : l.getLastD M.dflt ∈ l := by
        refine getLastD_mem l M.dflt ?_
        intro h0
        subst h0
        simp at hlen
      have hne := hl _ hz
      rw [if_pos hp, walk_cons_ne M _ x true hne]
      obtain ⟨ihs, ihv⟩ := ih hmem (M.comb (l.getLastD M.dflt) x) (hh _)
      constructor
      · show finish M (M.dflt :: (walk M (slotsModel M (pairUp M l))
            (M.comb (l.getLastD M.dflt) x) true).1)
            (walk M (slotsModel M (pairUp M l)) (M.comb (l.getLastD M.dflt) x) true).2.1
            = slotsModel M (l ++ [x])
        rw [finish_cons_dflt, ihs,
          slotsModel_cons M (l ++ [x]) (by simp; omega),
          if_neg (by simp; omega), pairUp_concat_odd M l x hp]
      · show (walk M (slotsModel M (pairUp M l))
            (M.comb (l.getLastD M.dflt) x) true).2.1 = MerkleTree.root M (l ++ [x])
        rw [ihv]
        exact (root_concat_odd M l x hp).symm
    · rw [if_neg hp, walk_cons_eq M _ x true rfl]
      have hfst := walk_false_fst M (slotsModel M (pairUp M l)) (M.comb x x)
      have hval := walk_virtual M hh (pairUp M l) hmem (M.comb x x)
      constructor
      · show finish M (x :: (walk M (slotsModel M (pairUp M l)) (M.comb x x) false).1)
            (walk M (slotsModel M (pairUp M l)) (M.comb x x) false).2.1
            = slotsModel M (l ++ [x])
        rw [hfst, slotsModel_cons M (l ++ [x]) (by simp; omega),
          if_pos (by simp; omega), concat_getLastD, pairUp_concat_even M l x (by omega)]
        unfold finish
        rw [if_neg (by simp [hx])]
      · show (walk M (slotsModel M (pairUp M l)) (M.comb x x) false).2.1
            = MerkleTree.root M (l ++ [x])
        rw [hval]
        exact (root_concat_even M l x (by omega) hlen).symm

theorem feedList_append {α : Type} [DecidableEq α] (M : HashScheme α)
    (t : BetterMerkleTree α) (l : List α) (x : α) :
    feedList M t (l ++ [x]) = (BetterMerkleTree.root M (feedList M t l) x).1 := by
  simp [feedList, List.foldl_append]

/-- Accumulator invariant: after feeding the non-default leaves `l` into a
fresh accumulator, the slot vector is `slotsModel l` and the stored root is
the batch root of `l`. -/
theorem feedList_spec {α : Type} [DecidableEq α] (M : HashScheme α)
    (hh : ∀ s, M.hash s ≠ M.dflt) :
    ∀ l : List α, (∀ z ∈ l, z ≠ M.dflt) →
      feedList M (BetterMerkleTree.new M) l =
        ⟨slotsModel M l, MerkleTree.root M l⟩ := by
  intro l
  induction l using List.reverseRecOn with
  | nil =>
    intro _
    rw [show feedList M (BetterMerkleTree.new M) [] = BetterMerkleTree.new M from rfl,
      slotsModel_nil, root_nil]
    rfl
  | append_singleton l x ih =>
    intro hl
    have hl' : ∀ z ∈ l, z ≠ M.dflt := fun z hz => hl z (List.mem_append_left _ hz)
    have hx : x ≠ M.dflt := hl x (List.mem_append_right _ (by simp))
    rw [feedList_append, ih hl']
    obtain ⟨hs, hv⟩ := walk_step M hh l hl' x hx
    show (⟨(BetterMerkleTree.merkle M (slotsModel M l) x true 0).1,
      (BetterMerkleTree.merkle M (slotsModel M l) x true 0).2⟩ : BetterMerkleTree α) = _
    rw [bmerkle_walk M (slotsModel M l) x true]
    show (⟨finish M (walk M (slotsModel M l) x true).1 (walk M (slotsModel M l) x true).2.1,
      (walk M (slotsModel M l) x true).2.1⟩ : BetterMerkleTree α) = _
    rw [hs, hv]

/-- `vec.length` steps of budget always suffice for `MerkleTree::merkle`
on a nonempty list. -/
theorem merkleF_some {α : Type} (M : HashScheme α) :
    ∀ (n : Nat) (vec : List α), vec ≠ [] → vec.length ≤ n →
      MerkleTree.merkleF M n vec = some (MerkleTree.merkle M vec) := by
  intro n
  induction n with
  | zero =>
    intro vec hne hl
    exact absurd (List.eq_nil_of_length_eq_zero (by omega)) hne
  | succ n ih =>
    intro vec hne hl
    by_cases h1 : vec.length = 1
    · match vec, h1 with
      | [x], _ => simp [MerkleTree.merkleF, merkle_one]
    · have hpos : 0 < vec.length := List.length_pos.mpr hne
      have h2 : 2 ≤ vec.length := by omega
      have hnext_len : (pairUp M (pad M vec)).length ≤ n := by
        rw [pairUp_length, pad_length]
        by_cases hp : vec.length % 2 = 1 <;> simp [hp] <;> omega
      have hnext_ne : pairUp M (pad M vec) ≠ [] := by
        intro habs
        have hlen := pairUp_length M (pad M vec)
        rw [habs, pad_length] at hlen
        by_cases hp : vec.length % 2 = 1 <;> simp [hp] at hlen <;> omega
      show (if vec.length = 1 then some vec
        else MerkleTree.merkleF M n (pairUp M (pad M vec))) = _
      rw [if_neg h1, ih _ hnext_ne hnext_len, merkle_step M vec h2]

/-- On `[]`, the recursion of `MerkleTree::merkle` consumes any finite
budget: the source diverges there (and `root` never reaches it). -/
theorem merkleF_nil_none {α : Type} (M : HashScheme α) :
    ∀ n, MerkleTree.merkleF M n ([] : List α) = none := by
  intro n
  induction n with
  | zero => rfl
  | succ n ih =>
    show (if ([] : List α).length = 1 then some ([] : List α)
      else MerkleTree.merkleF M n (pairUp M (pad M ([] : List α)))) = none
    rw [if_neg (by simp)]
    have hp : pairUp M (pad M ([] : List α)) = [] := rfl
    rw [hp, ih]

/-- One structural step of the budgeted walk. -/
theorem bmerkleF_succ {α : Type} [DecidableEq α] (M : HashScheme α)
    (fuel : Nat) (slots : List α) (v : α) (full : Bool) (round : Nat) :
    BetterMerkleTree.merkleF M (fuel + 1) slots v full round =
      if slots.length ≤ round then
        some (if slots.all (fun i => i == M.dflt) then slots ++ [v] else slots, v)
      else if slots.getD round M.dflt ≠ M.dflt then
        BetterMerkleTree.merkleF M fuel
          (if full then slots.set round M.dflt else slots)
          (M.comb (slots.getD round M.dflt) v) full (round + 1)
      else
        BetterMerkleTree.merkleF M fuel
          (if full then slots.set round v else slots)
          (M.comb v v) false (round + 1) := rfl

/-- `slots.length - round + 1` steps of budget always suffice for
`BetterMerkleTree::merkle`: the level index strictly increases, the slot
vector's length is fixed along the walk, and the walk returns as soon as
the index reaches that length. -/
theorem bmerkleF_some {α : Type} [DecidableEq α] (M : HashScheme α) :
    ∀ (fuel : Nat) (slots : List α) (v : α) (full : Bool) (round : Nat),
      slots.length - round < fuel →
      BetterMerkleTree.merkleF M fuel slots v full round =
        some (BetterMerkleTree.merkle M slots v full round) := by
  intro fuel
  induction fuel with
  | zero => intro slots v full round h; omega
  | succ fuel ih =>
    intro slots v full round h
    by_cases hle : slots.length ≤ round
    · rw [bmerkleF_succ, if_pos hle, bmerkle_le M slots v full round hle]
    · push_neg at hle
      by_cases hne : slots.getD round M.dflt ≠ M.dflt
      · rw [bmerkleF_succ, if_neg (by omega), if_pos hne,
          bmerkle_stored M slots v full round hle hne]
        apply ih
        cases full <;> simp <;> omega
      · push_neg at hne
        rw [bmerkleF_succ, if_neg (by omega), if_neg (not_not_intro hne),
          bmerkle_empty M slots v full round hle hne]
        apply ih
        cases full <;> simp <;> omega

theorem hexFlatten_length :
    ∀ d : List Nat, ((d.map byteHexChars).flatten).length = 2 * d.length := by
  intro d
  induction d with
  | nil => simp
  | cons b t ih =>
    simp only [List.map_cons, List.flatten_cons, List.length_append, ih, byteHexChars,
      List.length_cons, List.length_nil]
    omega

theorem digitChar_mem_lowerHex : ∀ n < 16, Nat.digitChar n ∈ lowerHexChars := by decide

theorem hexFlatten_mem (d : List Nat) (hb : ∀ b ∈ d, b < 256) :
    ∀ c ∈ (d.map byteHexChars).flatten, c ∈ lowerHexChars := by
  intro c hc
  rw [List.mem_flatten] at hc
  obtain ⟨l, hl, hcl⟩ := hc
  rw [List.mem_map] at hl
  obtain ⟨b, hbmem, rfl⟩ := hl
  have hblt := hb b hbmem
  simp only [byteHexChars, List.mem_cons, List.not_mem_nil, or_false] at hcl
  rcases hcl with rfl | rfl
  · exact digitChar_mem_lowerHex _ (by omega)
  · exact digitChar_mem_lowerHex _ (Nat.mod_lt _ (by omega))

theorem hexFlatten_drop :
    ∀ (i : Nat) (d : List Nat),
      ((d.map byteHexChars).flatten).drop (2 * i) = (((d.drop i).map byteHexChars).flatten) := by
  intro i
  induction i with
  | zero => intro d; simp
  | succ i ih =>
    intro d
    cases d with
    | nil => simp
    | cons b t =>
      show ((byteHexChars b ++ (t.map byteHexChars).flatten).drop (2 * (i + 1)))
        = ((t.drop i).map byteHexChars).flatten
      rw [show 2 * (i + 1) = 2 * i + 1 + 1 by omega]
      simp only [byteHexChars, List.cons_append, List.nil_append, List.drop_succ_cons]
      exact ih t

theorem hexFlatten_chunk (d : List Nat) (i : Nat) (hi : i < d.length) :
    (((d.map byteHexChars).flatten).drop (2 * i)).take 2 = byteHexChars (d.getD i 0) := by
  rw [hexFlatten_drop]
  have hd : d.drop i = d.getD i 0 :: d.drop (i + 1) := by
    rw [List.getD_eq_getElem d 0 hi]
    exact (List.getElem_cons_drop d i hi).symm
  rw [hd]
  simp [byteHexChars]

/-- Claim C4: when the level walk reaches a level `round` with
`slots.length <= round`, it terminates returning the carried value; the
value is appended as a new slot there iff every existing slot equals the
default value, and otherwise the slot vector is unchanged. -/
theorem c4_walk_end {α : Type} [DecidableEq α] (M : HashScheme α)
    (slots : List α) (v : α) (full : Bool) (round : Nat) (h : slots.length ≤ round) :
    (BetterMerkleTree.merkle M slots v full round).2 = v
      ∧ ((∀ z ∈ slots, z = M.dflt) →
          (BetterMerkleTree.merkle M slots v full round).1 = slots ++ [v])
      ∧ ((∃ z ∈ slots, z ≠ M.dflt) →
          (BetterMerkleTree.merkle M slots v full round).1 = slots) := by
  rw [bmerkle_le M slots v full round h]
  refine ⟨rfl, ?_, ?_⟩
  · intro hall
    have hc : slots.all (fun i => i == M.dflt) = true := by
      rw [List.all_eq_true]
      intro x hx
      exact beq_iff_eq.mpr (hall x hx)
    simp [hc]
  · rintro ⟨z, hz, hne⟩
    have hc : ¬ (slots.all (fun i => i == M.dflt) = true) := by
      rw [List.all_eq_true]
      push_neg
      exact ⟨z, hz, by simp [hne]⟩
    simp [hc]

theorem c4_witness :
    ([1] : List Nat).length ≤ 1
      ∧ (BetterMerkleTree.merkle unaryS [1] 2 true 1).2 = 2
      ∧ (BetterMerkleTree.merkle unaryS [1] 2 true 1).1 = [1] :=
  ⟨by decide, (c4_walk_end unaryS [1] 2 true 1 (by decide)).1,
   (c4_walk_end unaryS [1] 2 true 1 (by decide)).2.2 ⟨1, by decide, by decide⟩⟩

/-- Claim C3, counterexample to the claim as stated: at an empty
authoritative level the source continues the walk with `next_full = false`,
not `true`; continuing with `true` (as the claim asserts) parks values in
higher slots and yields a different post-state. -/
theorem c3_counterexample :
    BetterMerkleTree.merkle unaryS [0, 0, 7] 5 true 0
      ≠ BetterMerkleTree.merkle unaryS (([0, 0, 7] : List Nat).set 0 5)
          (unaryS.comb 5 5) true 1 := by decide

/-- Claim C3, amended: at an empty authoritative level the incoming value
is persisted into `slots[round]`, the value propagated upward is
`hash(encode(value) + encode(value))`, and the walk continues to level
`round + 1` with the authoritative flag set to `false` (parking a value
ends the authoritative path; only a completed pairing keeps it). -/
theorem c3_empty_slot_step {α : Type} [DecidableEq α] (M : HashScheme α)
    (slots : List α) (v : α) (round : Nat)
    (h : round < slots.length) (he : slots.getD round M.dflt = M.dflt) :
    BetterMerkleTree.merkle M slots v true round =
      BetterMerkleTree.merkle M (slots.set round v)
        (M.hash (M.toStr v ++ M.toStr v)) false (round + 1) := by
  rw [bmerkle_empty M slots v true round h he]
  rfl

theorem c3_witness :
    0 < ([0, 0, 7] : List Nat).length
      ∧ BetterMerkleTree.merkle unaryS [0, 0, 7] 5 true 0
        = BetterMerkleTree.merkle unaryS (([0, 0, 7] : List Nat).set 0 5)
            (unaryS.hash (unaryS.toStr 5 ++ unaryS.toStr 5)) false 1 :=
  ⟨by decide, c3_empty_slot_step unaryS [0, 0, 7] 5 0 (by decide) (by decide)⟩

/-- Claim C5: the batch root of the empty list is the default digest —
all-zero for the 32-byte digest types — independently of the hash
function, with no hashing performed (the result does not depend on the
scheme's hash field at all). -/
theorem c5_empty_root_default {α : Type} (M M' : HashScheme α) (hd : M'.dflt = M.dflt)
    (f g : String → List Nat) :
    MerkleTree.root M [] = M.dflt
      ∧ MerkleTree.root M' [] = MerkleTree.root M []
      ∧ MerkleTree.root (digest32Scheme f) [] = List.replicate 32 0
      ∧ MerkleTree.root (digest32Scheme f) [] = MerkleTree.root (digest32Scheme g) [] :=
  ⟨root_nil M, by rw [root_nil, root_nil, hd], rfl, rfl⟩

theorem c5_witness :
    unaryP.dflt = unaryS.dflt
      ∧ MerkleTree.root unaryS [] = unaryS.dflt :=
  ⟨rfl, (c5_empty_root_default unaryS unaryP rfl (fun _ => []) (fun _ => [])).1⟩

/-- Claim C6: the batch root of a singleton list is the element itself,
with no hashing applied (the result is the same under every scheme). -/
theorem c6_singleton_root {α : Type} (M : HashScheme α) (x : α) :
    MerkleTree.root M [x] = x
      ∧ ∀ M' : HashScheme α, MerkleTree.root M' [x] = MerkleTree.root M [x] :=
  ⟨root_one M x, fun M' => (root_one M' x).trans (root_one M x).symm⟩

/-- Claim C7, counterexample to the claim as stated: for the odd-length
singleton list the root is the element itself, while appending a duplicate
of the last element hashes the pair — the two differ in general. -/
theorem c7_counterexample :
    ([5] : List Nat).length % 2 = 1
      ∧ MerkleTree.root unaryS [5]
        ≠ MerkleTree.root unaryS ([5] ++ [([5] : List Nat).getLastD unaryS.dflt]) := by
  decide

/-- Claim C7, amended: for every odd-length list with at least two (hence
at least three) elements, the batch root equals the root of the list with
a duplicate of its last element appended. -/
theorem c7_odd_dup_padding {α : Type} (M : HashScheme α) (l : List α)
    (hodd : l.length % 2 = 1) (h2 : 2 ≤ l.length) :
    MerkleTree.root M l = MerkleTree.root M (l ++ [l.getLastD M.dflt]) := by
  rw [root_step M l h2]
  have hpadl : pad M l = l ++ [l.getLastD M.dflt] := by
    unfold pad
    rw [if_pos hodd]
  rw [hpadl, root_step M (l ++ [l.getLastD M.dflt]) (by simp; omega)]
  have hpade : pad M (l ++ [l.getLastD M.dflt]) = l ++ [l.getLastD M.dflt] := by
    unfold pad
    rw [if_neg (by simp; omega)]
  rw [hpade]

theorem c7_witness :
    ([1, 2, 3] : List Nat).length % 2 = 1
      ∧ MerkleTree.root unaryS [1, 2, 3]
        = MerkleTree.root unaryS ([1, 2, 3] ++ [([1, 2, 3] : List Nat).getLastD unaryS.dflt]) :=
  ⟨by decide, c7_odd_dup_padding unaryS [1, 2, 3] (by decide) (by decide)⟩

/-- Claim C8: loading the saved slot vector of an accumulator after any
number of feeds yields an instance whose current root is the default
digest, and feeding the same next digest into the original and the
restored instance returns the same root. -/
theorem c8_save_restore {α : Type} [DecidableEq α] (M : HashScheme α)
    (L : List α) (x : α) :
    (BetterMerkleTree.load M
        (BetterMerkleTree.helper (feedList M (BetterMerkleTree.new M) L))).currentRoot = M.dflt
      ∧ (BetterMerkleTree.root M
          (BetterMerkleTree.load M
            (BetterMerkleTree.helper (feedList M (BetterMerkleTree.new M) L))) x).2
        = (BetterMerkleTree.root M (feedList M (BetterMerkleTree.new M) L) x).2 :=
  ⟨rfl, rfl⟩

/-- Claim C9: two accumulators with equal slot vectors but arbitrary
stored roots return the same digest from a feed and end in identical
states — the stored `currentRoot` never influences a feed. -/
theorem c9_root_field_no_influence {α : Type} [DecidableEq α] (M : HashScheme α)
    (s : List α) (r₁ r₂ x : α) :
    (BetterMerkleTree.root M ⟨s, r₁⟩ x).2 = (BetterMerkleTree.root M ⟨s, r₂⟩ x).2
      ∧ (BetterMerkleTree.root M ⟨s, r₁⟩ x).1.slots
        = (BetterMerkleTree.root M ⟨s, r₂⟩ x).1.slots
      ∧ (BetterMerkleTree.root M ⟨s, r₁⟩ x).1.currentRoot
        = (BetterMerkleTree.root M ⟨s, r₂⟩ x).1.currentRoot :=
  ⟨rfl, rfl, rfl⟩

/-- Claim C10: both recursions terminate — `MerkleTree::merkle` within
`vec.length` steps on every nonempty list (each level has strictly fewer
nodes when at least two remain), `BetterMerkleTree::merkle` within
`slots.length - round + 1` steps (the level index strictly increases and
the walk returns on reaching the vector's length); on `[]` the batch
recursion exhausts any budget, matching the nonempty hypothesis. -/
theorem c10_termination {α : Type} [DecidableEq α] (M : HashScheme α) :
    (∀ vec : List α, vec ≠ [] →
        MerkleTree.merkleF M vec.length vec = some (MerkleTree.merkle M vec))
      ∧ (∀ vec : List α, 2 ≤ vec.length → (pairUp M (pad M vec)).length < vec.length)
      ∧ (∀ n, MerkleTree.merkleF M n ([] : List α) = none)
      ∧ (∀ (slots : List α) (v : α) (full : Bool) (round : Nat),
          BetterMerkleTree.merkleF M (slots.length - round + 1) slots v full round
            = some (BetterMerkleTree.merkle M slots v full round)) := by
  refine ⟨fun vec h => merkleF_some M vec.length vec h le_rfl, ?_, merkleF_nil_none M, ?_⟩
  · intro vec h2
    rw [pairUp_length, pad_length]
    by_cases hp : vec.length % 2 = 1 <;> simp [hp] <;> omega
  · intro slots v full round
    exact bmerkleF_some M _ slots v full round (by omega)

theorem c10_witness :
    ([1, 2] : List Nat) ≠ []
      ∧ MerkleTree.merkleF unaryS ([1, 2] : List Nat).length [1, 2]
        = some (MerkleTree.merkle unaryS [1, 2]) :=
  ⟨by decide, (c10_termination unaryS).1 [1, 2] (by decide)⟩

/-- Claim C2: in both algorithms the parent of two digests is the hash of
the concatenated canonical string encodings (not of the raw digest bytes),
and the 32-byte digest encoding is the fixed prefix `0x` followed by 64
lowercase hexadecimal characters, two per byte in order, no separators. -/
theorem c2_parent_and_encoding {α : Type} [DecidableEq α] (M : HashScheme α)
    (a b : α) (ha : a ≠ M.dflt) (d : List Nat) (h32 : d.length = 32)
    (hb : ∀ x ∈ d, x < 256) :
    MerkleTree.root M [a, b] = M.hash (M.toStr a ++ M.toStr b)
      ∧ (BetterMerkleTree.root M (BetterMerkleTree.root M (BetterMerkleTree.new M) a).1 b).2
          = M.hash (M.toStr a ++ M.toStr b)
      ∧ ∃ rest : List Char,
          (digestStr d).data = '0' :: 'x' :: rest
            ∧ rest.length = 64
            ∧ (∀ c ∈ rest, c ∈ lowerHexChars)
            ∧ ∀ i < 32, (rest.drop (2 * i)).take 2
                = [Nat.digitChar (d.getD i 0 / 16), Nat.digitChar (d.getD i 0 % 16)] := by
  refine ⟨root_two M a b, ?_, ?_⟩
  · have h1 : BetterMerkleTree.merkle M ([] : List α) a true 0 = ([a], a) := by
      rw [bmerkle_le M [] a true 0 (by simp)]
      simp
    have h2 : (BetterMerkleTree.root M (BetterMerkleTree.new M) a).1
        = (⟨[a], a⟩ : BetterMerkleTree α) := by
      show (⟨(BetterMerkleTree.merkle M ([] : List α) a true 0).1,
        (BetterMerkleTree.merkle M ([] : List α) a true 0).2⟩ : BetterMerkleTree α) = _
      rw [h1]
    rw [h2]
    show (BetterMerkleTree.merkle M [a] b true 0).2 = M.hash (M.toStr a ++ M.toStr b)
    rw [bmerkle_stored M [a] b true 0 (by simp) (by simpa using ha)]
    rw [show (if true then ([a] : List α).set 0 M.dflt else [a]) = [M.dflt] from by simp]
    rw [bmerkle_le M [M.dflt] (M.comb (([a] : List α).getD 0 M.dflt) b) true 1 (by simp)]
    rfl
  · refine ⟨(d.map byteHexChars).flatten, rfl, ?_, hexFlatten_mem d hb, ?_⟩
    · rw [hexFlatten_length, h32]
    · intro i hi
      rw [hexFlatten_chunk d i (by omega)]
      rfl

theorem c2_witness :
    (1 : Nat) ≠ unaryS.dflt
      ∧ MerkleTree.root unaryS [1, 2] = unaryS.hash (unaryS.toStr 1 ++ unaryS.toStr 2) :=
  ⟨by decide,
   (c2_parent_and_encoding unaryS 1 2 (by decide) (List.replicate 32 0)
     (by decide) (by decide)).1⟩

/-- Claim C1, counterexample to the claim as stated: a leaf equal to the
default digest is indistinguishable from an empty slot, so feeding
`[default, x]` makes the incremental root diverge from the batch root at
the second feed. -/
theorem c1_counterexample :
    (BetterMerkleTree.root unaryS
        (feedList unaryS (BetterMerkleTree.new unaryS) (([0, 1] : List Nat).take 1))
        (([0, 1] : List Nat).getD 1 unaryS.dflt)).2
      ≠ MerkleTree.root unaryS (([0, 1] : List Nat).take 2) := by decide

/-- Claim C1, amended: provided no fed digest equals the default digest
and the hash function never outputs the default digest, feeding
`L[0], ..., L[i]` in order into a fresh accumulator returns, after each
feed, exactly the batch root of the prefix `L[0..=i]` (also stored as
`currentRoot`). -/
theorem c1_incremental_matches_batch {α : Type} [DecidableEq α] (M : HashScheme α)
    (hh : ∀ s, M.hash s ≠ M.dflt) (L : List α) (hL : ∀ x ∈ L, x ≠ M.dflt)
    (i : Nat) (hi : i < L.length) :
    (BetterMerkleTree.root M (feedList M (BetterMerkleTree.new M) (L.take i))
        (L.getD i M.dflt)).2
      = MerkleTree.root M (L.take (i + 1))
      ∧ (feedList M (BetterMerkleTree.new M) (L.take (i + 1))).currentRoot
        = MerkleTree.root M (L.take (i + 1)) := by
  have htake : L.take (i + 1) = L.take i ++ [L.getD i M.dflt] := by
    rw [List.take_succ]
    congr 1
    rw [List.getD_eq_getElem L M.dflt hi]
    simp [List.getElem?_eq_getElem hi]
  have hx : L.getD i M.dflt ≠ M.dflt := by
    refine hL _ ?_
    rw [List.getD_eq_getElem L M.dflt hi]
    exact List.getElem_mem hi
  have hpre : ∀ z ∈ L.take i, z ≠ M.dflt := fun z hz => hL z (List.take_subset i L hz)
  have hpre1 : ∀ z ∈ L.take (i + 1), z ≠ M.dflt :=
    fun z hz => hL z (List.take_subset (i + 1) L hz)
  constructor
  · rw [feedList_spec M hh (L.take i) hpre]
    show (BetterMerkleTree.merkle M (slotsModel M (L.take i)) (L.getD i M.dflt) true 0).2
      = MerkleTree.root M (L.take (i + 1))
    rw [bmerkle_walk]
    show (walk M (slotsModel M (L.take i)) (L.getD i M.dflt) true).2.1 = _
    obtain ⟨_, hv⟩ := walk_step M hh (L.take i) hpre (L.getD i M.dflt) hx
    rw [hv, ← htake]
  · rw [feedList_spec M hh (L.take (i + 1)) hpre1]

theorem c1_witness :
    (1 : Nat) < ([1, 2] : List Nat).length
      ∧ (feedList unaryP (BetterMerkleTree.new unaryP) (([1, 2] : List Nat).take (1 + 1))).currentRoot
        = MerkleTree.root unaryP (([1, 2] : List Nat).take (1 + 1)) :=
  ⟨by decide,
   (c1_incremental_matches_batch unaryP (fun s => Nat.succ_ne_zero _) [1, 2]
     (by decide) 1 (by decide)).2⟩
